import Mathlib

/-!
Shallow embedding of the sketchy NFT holder-scanner scripts.

Embedded components:
* the ownership-replay ledger of `main` in `eth.py` / `abstract.py`
  (token_owner dict, holders defaultdict-of-sets, final holder projection);
* the adaptive chunked log scanner `fetch_logs_in_chunks`
  (`abstract.py` variant: halve on "more than" errors, re-raise others;
   `eth.py` variant: halve on every caught error, regrow on success);
* the deployment-block binary search `find_deployment_block` in `eth.py`;
* the per-owner event fold `fetch_via_logs` in `app.py`
  (single `Transfer` and `ConsecutiveTransfer` batch events).

Addresses and token ids are modelled as naturals; `0` plays the role of the
all-zero sentinel address.  The stateful `while` loops are modelled as
fuel-indexed step functions; `none` means the loop has not terminated
within the given fuel.
-/

/-- Addresses, modelled as naturals; `0` is the zero-address sentinel
`0x0000000000000000000000000000000000000000` of the scripts. -/
abbrev Address := Nat

/-- Token identifiers (`uint256` token ids). -/
abbrev TokenId := Nat

/-- A decoded `Transfer(address,address,uint256)` event, as unpacked from the
log topics in `main` (`frm`, `to`, `tid` in the scripts). -/
structure TransferEvent where
  frm : Address
  toA : Address
  tid : TokenId
  deriving DecidableEq

/-- The replay state of `main`: `token_owner` dict (token id to current owner,
absent = never assigned), `holders` defaultdict (address to set of token ids),
and the insertion-ordered key list of the `holders` dict (Python dicts iterate
in key-insertion order, which the final list comprehension observes). -/
structure Ledger where
  tokenOwner : TokenId → Option Address
  holderTokens : Address → Finset TokenId
  addrs : List Address

/-- The empty ledger: `token_owner = {}`, `holders = defaultdict(set)`. -/
def emptyLedger : Ledger := ⟨fun _ => none, fun _ => ∅, []⟩

/-- The removal half of one loop iteration of `main`:
`if frm != zero: if token_owner.get(tid) == frm: holders[frm].discard(tid)`. -/
def Ledger.removeStep (L : Ledger) (e : TransferEvent) : Address → Finset TokenId :=
  fun a =>
    if e.frm ≠ 0 ∧ L.tokenOwner e.tid = some e.frm ∧ a = e.frm then
      (L.holderTokens a).erase e.tid
    else L.holderTokens a

/-- Key-insertion bookkeeping of the `holders` defaultdict for the removal
step: `holders[frm]` materialises the key `frm` when both guards hold. -/
def Ledger.addrsStep (L : Ledger) (e : TransferEvent) : List Address :=
  if e.frm ≠ 0 ∧ L.tokenOwner e.tid = some e.frm ∧ e.frm ∉ L.addrs then
    L.addrs ++ [e.frm]
  else L.addrs

/-- One loop iteration of `main` over a decoded transfer log:
conditional removal from the previous owner, then
`token_owner[tid] = to` and `holders[to].add(tid)`. -/
def Ledger.apply (L : Ledger) (e : TransferEvent) : Ledger :=
  { tokenOwner := fun t => if t = e.tid then some e.toA else L.tokenOwner t
    holderTokens := fun a =>
      if a = e.toA then insert e.tid (L.removeStep e a) else L.removeStep e a
    addrs := if e.toA ∈ L.addrsStep e then L.addrsStep e else L.addrsStep e ++ [e.toA] }

/-- The full replay loop of `main`: fold the decoded event list, in stream
order, into the initially empty ledger. -/
def replay (es : List TransferEvent) : Ledger :=
  es.foldl Ledger.apply emptyLedger

/-- Ascending enumeration of a finite set of naturals (the model of Python's
`sorted` applied to a set): scan `0 .. sup` and keep the members. -/
def sortedElems (s : Finset Nat) : List Nat :=
  (List.range (s.sup id + 1)).filter (fun x => x ∈ s)

/-- The per-owner token list of the boundary contract: `sorted(holders[a])`. -/
def Ledger.tokensOf (L : Ledger) (a : Address) : List TokenId :=
  sortedElems (L.holderTokens a)

/-- The holder projection of `main`:
`result = [h for h, toks in holders.items() if toks]` (insertion order,
keeping every key whose token set is non-empty). -/
def Ledger.holdersList (L : Ledger) : List Address :=
  L.addrs.filter (fun a => L.holderTokens a ≠ ∅)

/-- The forward half of the mapping-consistency invariant: every token id with
a recorded owner is a member of that owner's token set. -/
def FwdInv (L : Ledger) : Prop :=
  ∀ t a, L.tokenOwner t = some a → t ∈ L.holderTokens a

theorem mem_removeStep (L : Ledger) (e : TransferEvent) (a : Address) (t : TokenId) :
    t ∈ L.removeStep e a ↔
      t ∈ L.holderTokens a ∧
        ¬(t = e.tid ∧ a = e.frm ∧ e.frm ≠ 0 ∧ L.tokenOwner e.tid = some e.frm) := by
  unfold Ledger.removeStep
  split
  · rename_i h
    obtain ⟨hf, ho, ha⟩ := h
    subst ha
    simp [Finset.mem_erase, hf, ho]
    tauto
  · rename_i h
    constructor
    · intro hm
      exact ⟨hm, fun hc => h ⟨hc.2.2.1, hc.2.2.2, hc.2.1⟩⟩
    · exact fun hm => hm.1

theorem apply_preserves_fwdInv (L : Ledger) (e : TransferEvent) (h : FwdInv L) :
    FwdInv (L.apply e) := by
  intro t a hta
  simp only [Ledger.apply] at hta ⊢
  by_cases ht : t = e.tid
  · subst ht
    rw [if_pos rfl] at hta
    cases hta
    rw [if_pos rfl]
    exact Finset.mem_insert_self _ _
  · rw [if_neg ht] at hta
    have hmem := h t a hta
    have hrem : t ∈ L.removeStep e a := by
      unfold Ledger.removeStep
      split
      · exact Finset.mem_erase.mpr ⟨ht, hmem⟩
      · exact hmem
    by_cases ha : a = e.toA
    · rw [if_pos ha]
      exact Finset.mem_insert_of_mem hrem
    · rw [if_neg ha]
      exact hrem

theorem foldl_preserves_fwdInv (es : List TransferEvent) :
    ∀ L, FwdInv L → FwdInv (es.foldl Ledger.apply L) := by
  induction es with
  | nil => intro L h; exact h
  | cons e es ih => intro L h; exact ih _ (apply_preserves_fwdInv L e h)

/-- C9: for every sequence of transfer events replayed in order from the empty
ledger, the forward half of the consistency invariant holds after each apply
(each prefix of a stream is itself a stream): every token id recorded in
`token_owner` — including one whose recorded owner is the zero address —
belongs to the recorded owner's entry in `holders`. -/
theorem replay_forward_invariant (es : List TransferEvent) (t : TokenId) (a : Address)
    (h : (replay es).tokenOwner t = some a) : t ∈ (replay es).holderTokens a :=
  foldl_preserves_fwdInv es emptyLedger
    (fun t a h0 => by simp [emptyLedger] at h0) t a h

/-- Witness for C9 at the concrete mint `Transfer(zero, 1, 7)`. -/
theorem replay_forward_invariant_witness :
    7 ∈ (replay [⟨0, 1, 7⟩]).holderTokens 1 :=
  replay_forward_invariant [⟨0, 1, 7⟩] 7 1 (by decide)

/-- C1 counterexample/code evaluation: after `Transfer(zero, 1, 7)` followed by
`Transfer(2, 3, 7)` (the stated sender `2` disagrees with the recorded owner
`1`), `main` skips the removal but still reassigns, so token `7` is still in
holder `1`'s set while `token_owner[7] = 3`: the reverse inclusion of the
mapping-consistency invariant is violated after this apply. -/
theorem ledger_consistency_violation :
    7 ∈ (replay [⟨0, 1, 7⟩, ⟨2, 3, 7⟩]).holderTokens 1 ∧
    (replay [⟨0, 1, 7⟩, ⟨2, 3, 7⟩]).tokenOwner 7 = some 3 ∧
    (3 : Address) ≠ 1 := by
  refine ⟨by decide, by decide, by decide⟩

/-- C3: one `apply` of a transfer event performs exactly the conditional
removal, the owner reassignment, and the addition to the receiver's set — a
token id is in `holders[a]` afterwards iff it is the freshly added pair or it
was there before and was not the removed pair — and on the concrete run
`Transfer(zero, A, 7)` then `Transfer(A, B, 7)` (A = 1, B = 2) the ledger
reports `tokensOf A = []`, `tokensOf B = [7]`, `holders = [B]`. -/
theorem apply_transfer_semantics :
    (∀ (L : Ledger) (e : TransferEvent) (a : Address) (t : TokenId),
        t ∈ (L.apply e).holderTokens a ↔
          ((a = e.toA ∧ t = e.tid) ∨
           (t ∈ L.holderTokens a ∧
            ¬(t = e.tid ∧ a = e.frm ∧ e.frm ≠ 0 ∧ L.tokenOwner e.tid = some e.frm)))) ∧
    (∀ (L : Ledger) (e : TransferEvent) (t : TokenId),
        (L.apply e).tokenOwner t = if t = e.tid then some e.toA else L.tokenOwner t) ∧
    ((replay [⟨0, 1, 7⟩, ⟨1, 2, 7⟩]).tokensOf 1 = [] ∧
     (replay [⟨0, 1, 7⟩, ⟨1, 2, 7⟩]).tokensOf 2 = [7] ∧
     (replay [⟨0, 1, 7⟩, ⟨1, 2, 7⟩]).holdersList = [2]) := by
  refine ⟨?_, ?_, by decide, by decide, by decide⟩
  · intro L e a t
    by_cases h1 : a = e.toA
    · subst h1
      simp only [Ledger.apply]
      simp [Finset.mem_insert, mem_removeStep]
    · simp only [Ledger.apply]
      simp [h1, mem_removeStep]
  · intro L e t
    rfl

/-- C4 counterexample/code evaluation: after the mint `Transfer(zero, 1, 7)`
and the burn `Transfer(1, zero, 7)`, the holder projection of `main` — which
filters only empty token sets, not the zero address — reports the zero
address as the sole holder. -/
theorem holders_zero_address_violation :
    (replay [⟨0, 1, 7⟩, ⟨1, 0, 7⟩]).holdersList = [0] ∧
    (0 : Address) ∈ (replay [⟨0, 1, 7⟩, ⟨1, 0, 7⟩]).holdersList := by
  refine ⟨by decide, by decide⟩

/-- A raw log entry; only the replay-order key `(blockNumber, logIndex)` is
kept, the payload being opaque to the scanner. -/
structure RawEvent where
  blockNumber : Nat
  logIndex : Nat
  deriving DecidableEq

/-- Outcome of one `w3.eth.get_logs` call: a successful batch, a
result-set-too-large error (`Web3RPCError` whose message contains
"more than"), or a transient network/protocol failure (any other caught
exception class). -/
inductive QueryOutcome where
  | ok : List RawEvent → QueryOutcome
  | tooLarge : QueryOutcome
  | transient : QueryOutcome
  deriving DecidableEq

/-- Mutable state of the `fetch_logs_in_chunks` while loop: the number of
queries issued so far (so an injected behaviour may vary over time), the
cursor `current`, the window `chunk`, and the accumulated `logs`. -/
structure ScanState where
  step : Nat
  current : Nat
  chunk : Nat
  logs : List RawEvent
  deriving DecidableEq

/-- Result of one loop iteration: continue with a new state, leave the loop
with the accumulated logs, or abort by propagating an exception. -/
inductive StepOut where
  | more : ScanState → StepOut
  | done : List RawEvent → StepOut
  | failed : StepOut
  deriving DecidableEq

/-- One iteration of `fetch_logs_in_chunks` in `abstract.py`:
query `[current, min(current+chunk-1, end)]`; on success extend `logs` and
advance the cursor; on a "more than" error halve `chunk` (floor 1) without
moving the cursor; re-raise any other error. -/
def abstractStep (query : Nat → Nat → Nat → QueryOutcome) (endB : Nat)
    (s : ScanState) : StepOut :=
  if s.current ≤ endB then
    match query s.step s.current (min (s.current + s.chunk - 1) endB) with
    | .ok batch =>
        .more ⟨s.step + 1, min (s.current + s.chunk - 1) endB + 1, s.chunk, s.logs ++ batch⟩
    | .tooLarge => .more ⟨s.step + 1, s.current, max (s.chunk / 2) 1, s.logs⟩
    | .transient => .failed
  else .done s.logs

/-- The initial chunk size of `eth.py` (`INITIAL_CHUNK = 5000`). -/
def INITIAL_CHUNK : Nat := 5000

/-- One iteration of `fetch_logs_in_chunks` in `eth.py`: on success extend,
advance and regrow `chunk` (doubling, capped at `INITIAL_CHUNK`); on ANY
caught error — `Web3RPCError`, `HTTPError`, `ConnectionError` and
`ProtocolError` are all handled by the same `except` arm — halve `chunk`
(floor 1), sleep, and retry the same cursor. -/
def ethStep (query : Nat → Nat → Nat → QueryOutcome) (endB : Nat)
    (s : ScanState) : StepOut :=
  if s.current ≤ endB then
    match query s.step s.current (min (s.current + s.chunk - 1) endB) with
    | .ok batch =>
        .more ⟨s.step + 1, min (s.current + s.chunk - 1) endB + 1,
          min (s.chunk * 2) INITIAL_CHUNK, s.logs ++ batch⟩
    | .tooLarge => .more ⟨s.step + 1, s.current, max (s.chunk / 2) 1, s.logs⟩
    | .transient => .more ⟨s.step + 1, s.current, max (s.chunk / 2) 1, s.logs⟩
  else .done s.logs

/-- Fuel-indexed unrolling of the scan `while` loop; `none` means the loop is
still running after `fuel` iterations. -/
def scanLoop (stepF : ScanState → StepOut) :
    Nat → ScanState → Option (Except Unit (List RawEvent))
  | 0, _ => none
  | fuel + 1, s =>
    match stepF s with
    | .more s2 => scanLoop stepF fuel s2
    | .done logs => some (.ok logs)
    | .failed => some (.error ())

namespace Abstract

/-- `fetch_logs_in_chunks` of `abstract.py`: walk `[start, endB]` starting
from `chunk = 100_000`, accumulating logs. -/
def fetch_logs_in_chunks (query : Nat → Nat → Nat → QueryOutcome)
    (start endB fuel : Nat) : Option (Except Unit (List RawEvent)) :=
  scanLoop (abstractStep query endB) fuel ⟨0, start, 100000, []⟩

end Abstract

namespace Eth

/-- `fetch_logs_in_chunks` of `eth.py`: walk `[start, endB]` starting from
`chunk = INITIAL_CHUNK`, accumulating logs. -/
def fetch_logs_in_chunks (query : Nat → Nat → Nat → QueryOutcome)
    (start endB fuel : Nat) : Option (Except Unit (List RawEvent)) :=
  scanLoop (ethStep query endB) fuel ⟨0, start, INITIAL_CHUNK, []⟩

end Eth

/-- The unthrottled reference result: all events of blocks `a .. b` in block
order, as one query over the whole interval would return them. -/
def rangeEvents (ev : Nat → List RawEvent) (a b : Nat) : List RawEvent :=
  ((List.range' a (b + 1 - a)).map ev).flatten

theorem rangeEvents_split (ev : Nat → List RawEvent) (a b c : Nat)
    (h1 : a ≤ b + 1) (h2 : b ≤ c) :
    rangeEvents ev a c = rangeEvents ev a b ++ rangeEvents ev (b + 1) c := by
  unfold rangeEvents
  rw [← List.flatten_append, ← List.map_append]
  have h := List.range'_append_1 a (b + 1 - a) (c + 1 - (b + 1))
  rw [show a + (b + 1 - a) = b + 1 by omega] at h
  rw [h, show c + 1 - (b + 1) + (b + 1 - a) = c + 1 - a by omega]

theorem rangeEvents_empty (ev : Nat → List RawEvent) (a b : Nat) (h : b < a) :
    rangeEvents ev a b = [] := by
  unfold rangeEvents
  rw [show b + 1 - a = 0 by omega]
  rfl

theorem scanLoop_abstract_coverage (ev : Nat → List RawEvent)
    (query : Nat → Nat → Nat → QueryOutcome) (endB : Nat)
    (hok : ∀ s a b batch, query s a b = .ok batch → batch = rangeEvents ev a b)
    (hnt : ∀ s a b, query s a b ≠ .transient) :
    ∀ (fuel : Nat) (s : ScanState) (r : Except Unit (List RawEvent)),
      1 ≤ s.chunk →
      scanLoop (abstractStep query endB) fuel s = some r →
      r = .ok (s.logs ++ rangeEvents ev s.current endB) := by
  intro fuel
  induction fuel with
  | zero => intro s r _ hrun; exact absurd hrun (by simp [scanLoop])
  | succ n ih =>
    intro s r hchunk hrun
    by_cases hcur : s.current ≤ endB
    · have htb1 : s.current ≤ min (s.current + s.chunk - 1) endB := by
        omega
      have htb2 : min (s.current + s.chunk - 1) endB ≤ endB := by
        omega
      rw [show scanLoop (abstractStep query endB) (n + 1) s =
            (match abstractStep query endB s with
             | .more s2 => scanLoop (abstractStep query endB) n s2
             | .done logs => some (.ok logs)
             | .failed => some (.error ())) from rfl] at hrun
      unfold abstractStep at hrun
      rw [if_pos hcur] at hrun
      cases hq : query s.step s.current (min (s.current + s.chunk - 1) endB) with
      | ok batch =>
        rw [hq] at hrun
        have hbatch := hok _ _ _ _ hq
        have := ih _ r (by simpa using hchunk) hrun
        rw [this, hbatch]
        have hsplit := rangeEvents_split ev s.current
          (min (s.current + s.chunk - 1) endB) endB (by omega) htb2
        simp only [List.append_assoc]
        rw [← hsplit]
      | tooLarge =>
        rw [hq] at hrun
        have := ih _ r (by simp) hrun
        simpa using this
      | transient => exact absurd hq (hnt _ _ _)
    · rw [show scanLoop (abstractStep query endB) (n + 1) s =
            (match abstractStep query endB s with
             | .more s2 => scanLoop (abstractStep query endB) n s2
             | .done logs => some (.ok logs)
             | .failed => some (.error ())) from rfl] at hrun
      unfold abstractStep at hrun
      rw [if_neg hcur] at hrun
      cases hrun
      rw [rangeEvents_empty ev s.current endB (by omega)]
      simp

/-- C2: against any query behaviour that only ever answers with a successful
batch (sound for the underlying event stream) or a result-set-too-large
error, if the `abstract.py` scan loop terminates it returns exactly the
events a single unthrottled query over `[start, endB]` would return, in
block order, with no gap and no duplicate; and a size-limit answer leaves
the cursor and the accumulated logs untouched, only halving the chunk. -/
theorem abstract_scan_coverage (ev : Nat → List RawEvent)
    (query : Nat → Nat → Nat → QueryOutcome) (start endB fuel : Nat)
    (r : Except Unit (List RawEvent))
    (hse : start ≤ endB)
    (hok : ∀ s a b batch, query s a b = .ok batch → batch = rangeEvents ev a b)
    (hnt : ∀ s a b, query s a b ≠ .transient)
    (hrun : Abstract.fetch_logs_in_chunks query start endB fuel = some r) :
    r = .ok (rangeEvents ev start endB) ∧
    (∀ t : ScanState, t.current ≤ endB →
      query t.step t.current (min (t.current + t.chunk - 1) endB) = .tooLarge →
      abstractStep query endB t =
        .more ⟨t.step + 1, t.current, max (t.chunk / 2) 1, t.logs⟩) := by
  constructor
  · have := scanLoop_abstract_coverage ev query endB hok hnt fuel
      ⟨0, start, 100000, []⟩ r (by simp) hrun
    simpa using this
  · intro t ht hq
    unfold abstractStep
    rw [if_pos ht, hq]

/-- A concrete event stream for witnesses: one event per block. -/
def evW : Nat → List RawEvent := fun n => [⟨n, 0⟩]

/-- A concrete throttled query behaviour: ranges spanning three or more
blocks answer result-set-too-large, smaller ranges succeed. -/
def queryW : Nat → Nat → Nat → QueryOutcome := fun _ a b =>
  if 2 ≤ b - a then .tooLarge else .ok (rangeEvents evW a b)

/-- Witness for C2 on the interval `[0, 5]` with the throttled behaviour
`queryW`: the terminating scan returns exactly the one-event-per-block
stream, and the very first (too-large) query leaves cursor and logs
untouched. -/
theorem abstract_scan_coverage_witness :
    (Except.ok [(⟨0, 0⟩ : RawEvent), ⟨1, 0⟩, ⟨2, 0⟩, ⟨3, 0⟩, ⟨4, 0⟩, ⟨5, 0⟩] :
        Except Unit (List RawEvent)) = .ok (rangeEvents evW 0 5) ∧
    abstractStep queryW 5 ⟨0, 0, 100000, []⟩ = .more ⟨1, 0, 50000, []⟩ := by
  have h := abstract_scan_coverage evW queryW 0 5 100
    (.ok [⟨0, 0⟩, ⟨1, 0⟩, ⟨2, 0⟩, ⟨3, 0⟩, ⟨4, 0⟩, ⟨5, 0⟩])
    (by decide)
    (fun s a b batch hq => by
      unfold queryW at hq
      split at hq
      · simp at hq
      · cases hq; rfl)
    (fun s a b => by
      unfold queryW
      split
      · simp
      · simp)
    (by rfl)
  exact ⟨h.1, h.2 ⟨0, 0, 100000, []⟩ (by decide) (by decide)⟩

/-- The adversarial behaviour for C6: every query, including 1-block ones,
answers result-set-too-large. -/
def queryAllTooLarge : Nat → Nat → Nat → QueryOutcome := fun _ _ _ => .tooLarge

theorem scanLoop_allTooLarge_none :
    ∀ (fuel stp chunk : Nat),
      scanLoop (abstractStep queryAllTooLarge 0) fuel ⟨stp, 0, chunk, []⟩ = none := by
  intro fuel
  induction fuel with
  | zero => intro stp chunk; rfl
  | succ n ih =>
    intro stp chunk
    have hstep : abstractStep queryAllTooLarge 0 ⟨stp, 0, chunk, []⟩ =
        .more ⟨stp + 1, 0, max (chunk / 2) 1, []⟩ := rfl
    simp only [scanLoop, hstep]
    exact ih (stp + 1) (max (chunk / 2) 1)

/-- C6 refutation/code evaluation: when every query — even over the 1-block
interval `[0, 0]` — answers result-set-too-large, the `abstract.py` scan
loop never terminates: for every fuel bound the loop is still running
(it keeps retrying the same 1-block range at `chunk = 1` forever instead
of surfacing a fatal non-progress condition). -/
theorem abstract_scan_nontermination (fuel : Nat) :
    Abstract.fetch_logs_in_chunks queryAllTooLarge 0 0 fuel = none :=
  scanLoop_allTooLarge_none fuel 0 100000

/-- Witness for C6 at the concrete fuel bound 1000. -/
theorem abstract_scan_nontermination_witness :
    Abstract.fetch_logs_in_chunks queryAllTooLarge 0 0 1000 = none :=
  abstract_scan_nontermination 1000

/-- A behaviour whose every answer is a transient connectivity failure. -/
def queryTransientAlways : Nat → Nat → Nat → QueryOutcome := fun _ _ _ => .transient

/-- C5 counterexample: in `eth.py` a transient-connectivity failure does NOT
retry at the same chunk size — the single `except` arm halves the chunk
exactly as for a size-limit failure: from the initial state with
`chunk = INITIAL_CHUNK = 5000`, one transient failure leaves the cursor in
place but changes the chunk to 2500. -/
theorem eth_transient_shrinks_chunk :
    ethStep queryTransientAlways 10 ⟨0, 0, INITIAL_CHUNK, []⟩ =
      .more ⟨1, 0, 2500, []⟩ ∧
    ethStep queryTransientAlways 10 ⟨0, 0, INITIAL_CHUNK, []⟩ ≠
      .more ⟨1, 0, INITIAL_CHUNK, []⟩ := by
  refine ⟨by decide, by decide⟩

/-- C5 amended: the two failure classes do not receive distinct remediation
inside a single scanner. In `eth.py` every caught failure — transient or
size-limit alike — gets the same treatment: cursor unchanged, nothing
appended, chunk halved (floor 1); in `abstract.py` a size-limit failure is
the only remediated class, and a transient failure propagates as an
exception that aborts the scan. -/
theorem scanner_failure_remediation (query : Nat → Nat → Nat → QueryOutcome)
    (endB : Nat) (s : ScanState) (hcur : s.current ≤ endB)
    (hfail : query s.step s.current (min (s.current + s.chunk - 1) endB) = .tooLarge ∨
             query s.step s.current (min (s.current + s.chunk - 1) endB) = .transient) :
    ethStep query endB s = .more ⟨s.step + 1, s.current, max (s.chunk / 2) 1, s.logs⟩ ∧
    (abstractStep query endB s = .failed ↔
      query s.step s.current (min (s.current + s.chunk - 1) endB) = .transient) := by
  rcases hfail with hq | hq
  · constructor
    · unfold ethStep
      rw [if_pos hcur, hq]
    · unfold abstractStep
      rw [if_pos hcur, hq]
      simp [hq]
  · constructor
    · unfold ethStep
      rw [if_pos hcur, hq]
    · unfold abstractStep
      rw [if_pos hcur, hq]
      simp [hq]

/-- Witness for C5's amended statement at a concrete mid-scan state under the
always-transient behaviour. -/
theorem scanner_failure_remediation_witness :
    ethStep queryTransientAlways 10 ⟨3, 4, 6, [⟨1, 1⟩]⟩ =
      .more ⟨4, 4, 3, [⟨1, 1⟩]⟩ ∧
    (abstractStep queryTransientAlways 10 ⟨3, 4, 6, [⟨1, 1⟩]⟩ = .failed ↔
      queryTransientAlways 3 4 (min (4 + 6 - 1) 10) = .transient) :=
  scanner_failure_remediation queryTransientAlways 10 ⟨3, 4, 6, [⟨1, 1⟩]⟩
    (by decide) (Or.inr (by decide))

/-- The `while lo < hi` loop of `find_deployment_block` in `eth.py`, with a
fuel bound on the number of iterations (the span `hi - lo` strictly
decreases, so `hi - lo` iterations always suffice): candidate
`mid = (lo + hi) / 2`; absent code raises `lo = mid + 1`, present code
lowers `hi = mid`; the final `lo` is returned. -/
def fdbGo (hasCode : Nat → Bool) : Nat → Nat → Nat → Nat
  | 0, lo, _ => lo
  | fuel + 1, lo, hi =>
    if lo < hi then
      if hasCode ((lo + hi) / 2) then fdbGo hasCode fuel lo ((lo + hi) / 2)
      else fdbGo hasCode fuel ((lo + hi) / 2 + 1) hi
    else lo

/-- The heights `mid` at which the same loop calls `get_code`, in call
order (mirrors the recursion of `fdbGo`). -/
def fdbQueries (hasCode : Nat → Bool) : Nat → Nat → Nat → List Nat
  | 0, _, _ => []
  | fuel + 1, lo, hi =>
    if lo < hi then
      if hasCode ((lo + hi) / 2) then
        (lo + hi) / 2 :: fdbQueries hasCode fuel lo ((lo + hi) / 2)
      else
        (lo + hi) / 2 :: fdbQueries hasCode fuel ((lo + hi) / 2 + 1) hi
    else []

/-- `find_deployment_block(w3, address, high)` of `eth.py`: binary search on
`[0, high]`; `hasCode h` models
`w3.eth.get_code(address, block_identifier=h) != b""`. -/
def find_deployment_block (hasCode : Nat → Bool) (high : Nat) : Nat :=
  fdbGo hasCode high 0 high

/-- The heights at which `find_deployment_block` queries `get_code`. -/
def find_deployment_queries (hasCode : Nat → Bool) (high : Nat) : List Nat :=
  fdbQueries hasCode high 0 high

theorem fdbGo_correct (hasCode : Nat → Bool) (B : Nat)
    (hmono : ∀ i j, i ≤ j → j ≤ B → hasCode i = true → hasCode j = true) :
    ∀ (fuel lo hi : Nat), hi - lo ≤ fuel → lo ≤ hi → hi ≤ B →
      (∃ w, lo ≤ w ∧ w ≤ hi ∧ hasCode w = true) →
      (∀ h, h < lo → hasCode h = false) →
      lo ≤ fdbGo hasCode fuel lo hi ∧ fdbGo hasCode fuel lo hi ≤ hi ∧
        hasCode (fdbGo hasCode fuel lo hi) = true ∧
        ∀ h, h < fdbGo hasCode fuel lo hi → hasCode h = false := by
  intro fuel
  induction fuel with
  | zero =>
    intro lo hi hfuel hle hB hw hbelow
    obtain ⟨w, hw1, hw2, hw3⟩ := hw
    have hwlo : w = lo := by omega
    subst hwlo
    exact ⟨le_refl _, hle, hw3, hbelow⟩
  | succ n ih =>
    intro lo hi hfuel hle hB hw hbelow
    obtain ⟨w, hw1, hw2, hw3⟩ := hw
    by_cases hlt : lo < hi
    · have hmid1 : lo ≤ (lo + hi) / 2 := by omega
      have hmid2 : (lo + hi) / 2 < hi := by omega
      cases hc : hasCode ((lo + hi) / 2) with
      | true =>
        rw [show fdbGo hasCode (n + 1) lo hi = fdbGo hasCode n lo ((lo + hi) / 2) from by
          simp [fdbGo, hlt, hc]]
        obtain ⟨ha1, ha2, ha3, ha4⟩ := ih lo ((lo + hi) / 2) (by omega) hmid1 (by omega)
          ⟨(lo + hi) / 2, hmid1, le_refl _, hc⟩ hbelow
        exact ⟨ha1, by omega, ha3, ha4⟩
      | false =>
        have hwmid : (lo + hi) / 2 + 1 ≤ w := by
          by_contra hcon
          have hwle : w ≤ (lo + hi) / 2 := by omega
          have := hmono w ((lo + hi) / 2) hwle (by omega) hw3
          rw [this] at hc
          cases hc
        have hbelow2 : ∀ h, h < (lo + hi) / 2 + 1 → hasCode h = false := by
          intro h hh
          by_cases hhlo : h < lo
          · exact hbelow h hhlo
          · cases hch : hasCode h with
            | false => rfl
            | true =>
              have := hmono h ((lo + hi) / 2) (by omega) (by omega) hch
              rw [this] at hc
              cases hc
        rw [show fdbGo hasCode (n + 1) lo hi =
            fdbGo hasCode n ((lo + hi) / 2 + 1) hi from by simp [fdbGo, hlt, hc]]
        obtain ⟨ha1, ha2, ha3, ha4⟩ := ih ((lo + hi) / 2 + 1) hi (by omega) (by omega) hB
          ⟨w, hwmid, hw2, hw3⟩ hbelow2
        exact ⟨by omega, ha2, ha3, ha4⟩
    · rw [show fdbGo hasCode (n + 1) lo hi = lo from by simp [fdbGo, hlt]]
      have hwlo : w = lo := by omega
      subst hwlo
      exact ⟨le_refl _, hle, hw3, hbelow⟩

/-- C7: for every upper bound and every code-presence predicate that is
monotone on `[0, high]` and true somewhere in that range,
`find_deployment_block` returns the least height at which code is present:
code is present at the result, the result is at most `high`, and code is
absent strictly below the result. -/
theorem find_deployment_block_least (hasCode : Nat → Bool) (high h0 : Nat)
    (hmono : ∀ i j, i ≤ j → j ≤ high → hasCode i = true → hasCode j = true)
    (h0high : h0 ≤ high) (h0code : hasCode h0 = true) :
    hasCode (find_deployment_block hasCode high) = true ∧
    find_deployment_block hasCode high ≤ high ∧
    ∀ h, h < find_deployment_block hasCode high → hasCode h = false := by
  have h := fdbGo_correct hasCode high hmono high 0 high (by omega) (by omega)
    (le_refl _) ⟨h0, by omega, h0high, h0code⟩ (fun h hh => absurd hh (by omega))
  exact ⟨h.2.2.1, h.2.1, h.2.2.2⟩

/-- The synthetic presence predicate of spec property P8: code first appears
at height 500. -/
def hasCode500 : Nat → Bool := fun n => decide (500 ≤ n)

/-- Witness for C7: with code first appearing at height 500 inside
`[0, 1000]`, the locator returns exactly 500. -/
theorem find_deployment_block_least_witness :
    find_deployment_block hasCode500 1000 = 500 := by
  have h := find_deployment_block_least hasCode500 1000 500
    (fun i j hij hjB hi => by
      simp only [hasCode500, decide_eq_true_eq] at hi ⊢
      omega)
    (by decide) (by decide)
  have h1 : 500 ≤ find_deployment_block hasCode500 1000 := by
    have := h.1
    simpa [hasCode500] using this
  by_cases h2 : 500 < find_deployment_block hasCode500 1000
  · have := h.2.2 500 h2
    simp [hasCode500] at this
  · omega

theorem fdbQueries_lt (hasCode : Nat → Bool) :
    ∀ (fuel lo hi : Nat), ∀ q ∈ fdbQueries hasCode fuel lo hi, q < hi := by
  intro fuel
  induction fuel with
  | zero => intro lo hi q hq; simp [fdbQueries] at hq
  | succ n ih =>
    intro lo hi q hq
    by_cases hlt : lo < hi
    · cases hc : hasCode ((lo + hi) / 2) with
      | true =>
        rw [show fdbQueries hasCode (n + 1) lo hi =
            (lo + hi) / 2 :: fdbQueries hasCode n lo ((lo + hi) / 2) from by
          simp [fdbQueries, hlt, hc]] at hq
        rcases List.mem_cons.mp hq with hq | hq
        · omega
        · have := ih lo ((lo + hi) / 2) q hq
          omega
      | false =>
        rw [show fdbQueries hasCode (n + 1) lo hi =
            (lo + hi) / 2 :: fdbQueries hasCode n ((lo + hi) / 2 + 1) hi from by
          simp [fdbQueries, hlt, hc]] at hq
        rcases List.mem_cons.mp hq with hq | hq
        · omega
        · exact ih ((lo + hi) / 2 + 1) hi q hq
    · rw [show fdbQueries hasCode (n + 1) lo hi = [] from by simp [fdbQueries, hlt]] at hq
      simp at hq

theorem fdbGo_allFalse (hasCode : Nat → Bool) :
    ∀ (fuel lo hi : Nat), hi - lo ≤ fuel → lo ≤ hi →
      (∀ h, lo ≤ h → h < hi → hasCode h = false) →
      fdbGo hasCode fuel lo hi = hi := by
  intro fuel
  induction fuel with
  | zero =>
    intro lo hi hfuel hle _
    have : lo = hi := by omega
    simpa [fdbGo] using this
  | succ n ih =>
    intro lo hi hfuel hle hall
    by_cases hlt : lo < hi
    · have hc : hasCode ((lo + hi) / 2) = false := hall _ (by omega) (by omega)
      rw [show fdbGo hasCode (n + 1) lo hi =
          fdbGo hasCode n ((lo + hi) / 2 + 1) hi from by simp [fdbGo, hlt, hc]]
      exact ih ((lo + hi) / 2 + 1) hi (by omega) (by omega)
        (fun h h1 h2 => hall h (by omega) h2)
    · have : lo = hi := by omega
      rw [show fdbGo hasCode (n + 1) lo hi = lo from by simp [fdbGo, hlt]]
      exact this

/-- C10: when the address has empty code at every height of `[0, high]`, the
locator signals no error: the binary search converges to `lo = hi = high`
and returns `high`, and `get_code` is never consulted at height `high`
itself (every queried `mid` is strictly below `high`). -/
theorem find_deployment_block_no_code (hasCode : Nat → Bool) (high : Nat)
    (hall : ∀ h, h ≤ high → hasCode h = false) :
    find_deployment_block hasCode high = high ∧
    high ∉ find_deployment_queries hasCode high := by
  constructor
  · exact fdbGo_allFalse hasCode high 0 high (by omega) (by omega)
      (fun h _ h2 => hall h (by omega))
  · intro hmem
    have := fdbQueries_lt hasCode high 0 high high hmem
    omega

/-- Witness for C10 with the never-deployed predicate on `[0, 7]`. -/
theorem find_deployment_block_no_code_witness :
    find_deployment_block (fun _ => false) 7 = 7 ∧
    7 ∉ find_deployment_queries (fun _ => false) 7 :=
  find_deployment_block_no_code (fun _ => false) 7 (fun h _ => rfl)

/-- A decoded log entry as classified inside `fetch_via_logs` of `app.py`:
a single `Transfer(address,address,uint256)` (`TRANSFER_SIG`), a
`ConsecutiveTransfer(uint256,uint256,address,address)` (`CONS_SIG`), or an
event with any other signature (which the fold ignores). -/
inductive AppEvent where
  | transfer : Nat → Nat → Nat → AppEvent
  | consecutive : Nat → Nat → Nat → Nat → AppEvent
  | other : AppEvent
  deriving DecidableEq

/-- One iteration of the event fold in `fetch_via_logs` over `myset`:
`transfer frm toAd tid` adds `tid` when `toAd` is the queried owner, then
discards it when `frm` is the owner; `consecutive ft tt frm toAd` first
adds the whole inclusive range `ft .. tt` when `toAd` is the owner, then
discards every id of the range when `frm` is the owner. -/
def applyAppEvent (owner : Nat) (s : Finset Nat) : AppEvent → Finset Nat
  | .transfer frm toAd tid =>
      let s1 := if toAd = owner then insert tid s else s
      if frm = owner then s1.erase tid else s1
  | .consecutive ft tt frm toAd =>
      let s1 :=
        if toAd = owner then
          (List.range' ft (tt + 1 - ft)).foldl (fun acc x => insert x acc) s
        else s
      if frm = owner then
        (List.range' ft (tt + 1 - ft)).foldl (fun acc x => acc.erase x) s1
      else s1
  | .other => s

/-- `fetch_via_logs` of `app.py`, restricted to its pure fold: starting from
the empty `myset`, fold the decoded events for one owner and return the
ascending sorted token list. -/
def fetch_via_logs (owner : Nat) (events : List AppEvent) : List Nat :=
  sortedElems (events.foldl (applyAppEvent owner) ∅)

theorem mem_foldl_insert (l : List Nat) :
    ∀ (s : Finset Nat) (t : Nat),
      t ∈ l.foldl (fun acc x => insert x acc) s ↔ t ∈ s ∨ t ∈ l := by
  induction l with
  | nil => intro s t; simp
  | cons a l ih =>
    intro s t
    simp only [List.foldl_cons, List.mem_cons]
    rw [ih]
    simp [Finset.mem_insert]
    tauto

theorem mem_foldl_erase (l : List Nat) :
    ∀ (s : Finset Nat) (t : Nat),
      t ∈ l.foldl (fun acc x => acc.erase x) s ↔ t ∈ s ∧ t ∉ l := by
  induction l with
  | nil => intro s t; simp
  | cons a l ih =>
    intro s t
    simp only [List.foldl_cons, List.mem_cons]
    rw [ih]
    simp [Finset.mem_erase]
    tauto

/-- C8: a consecutive-transfer event acts on the per-owner set exactly as the
single-transfer add/discard procedure applied independently at every token
id of the inclusive declared range — ids inside the range behave as their
individual transfers, ids outside it are untouched — and the concrete batch
`ConsecutiveTransfer(10, 12, zero, A)` on the empty set yields
`tokensOf(A) = [10, 11, 12]`. -/
theorem batch_transfer_expansion :
    (∀ (owner : Nat) (s : Finset Nat) (ft tt frm toAd t : Nat),
        ft ≤ t → t ≤ tt →
        (t ∈ applyAppEvent owner s (.consecutive ft tt frm toAd) ↔
         t ∈ applyAppEvent owner s (.transfer frm toAd t))) ∧
    (∀ (owner : Nat) (s : Finset Nat) (ft tt frm toAd t : Nat),
        ¬(ft ≤ t ∧ t ≤ tt) →
        (t ∈ applyAppEvent owner s (.consecutive ft tt frm toAd) ↔ t ∈ s)) ∧
    fetch_via_logs 1 [.consecutive 10 12 0 1] = [10, 11, 12] := by
  refine ⟨?_, ?_, by decide⟩
  · intro owner s ft tt frm toAd t h1 h2
    have hmem : t ∈ List.range' ft (tt + 1 - ft) := by
      rw [List.mem_range'_1]
      omega
    by_cases hto : toAd = owner <;> by_cases hfrm : frm = owner <;>
      simp [applyAppEvent, hto, hfrm, mem_foldl_insert, mem_foldl_erase,
        Finset.mem_insert, Finset.mem_erase, hmem] <;>
      tauto
  · intro owner s ft tt frm toAd t hout
    have hmem : t ∉ List.range' ft (tt + 1 - ft) := by
      rw [List.mem_range'_1]
      omega
    by_cases hto : toAd = owner <;> by_cases hfrm : frm = owner <;>
      simp [applyAppEvent, hto, hfrm, mem_foldl_insert, mem_foldl_erase, hmem]

/-- Witness for C8 at token id 11 inside the declared range `[10, 12]` and
token id 5 outside it. -/
theorem batch_transfer_expansion_witness :
    (11 ∈ applyAppEvent 1 ∅ (.consecutive 10 12 0 1) ↔
      11 ∈ applyAppEvent 1 ∅ (.transfer 0 1 11)) ∧
    (5 ∈ applyAppEvent 1 {5} (.consecutive 10 12 0 1) ↔ 5 ∈ ({5} : Finset Nat)) := by
  have h := batch_transfer_expansion
  exact ⟨h.1 1 ∅ 10 12 0 1 11 (by decide) (by decide),
         h.2.1 1 {5} 10 12 0 1 5 (by decide)⟩

/-- Witness for C3's general clauses at a concrete ledger and event
(the mint `Transfer(zero, 1, 7)` followed by `Transfer(1, 2, 7)`). -/
theorem apply_transfer_semantics_witness :
    (7 ∈ ((replay [⟨0, 1, 7⟩]).apply ⟨1, 2, 7⟩).holderTokens 2 ↔
      (((2 : Address) = 2 ∧ (7 : TokenId) = 7) ∨
       (7 ∈ (replay [⟨0, 1, 7⟩]).holderTokens 2 ∧
        ¬((7 : TokenId) = 7 ∧ (2 : Address) = 1 ∧ (1 : Address) ≠ 0 ∧
          (replay [⟨0, 1, 7⟩]).tokenOwner 7 = some 1)))) ∧
    ((replay [⟨0, 1, 7⟩]).apply ⟨1, 2, 7⟩).tokenOwner 7 =
      if (7 : TokenId) = 7 then some 2 else (replay [⟨0, 1, 7⟩]).tokenOwner 7 :=
  ⟨apply_transfer_semantics.1 (replay [⟨0, 1, 7⟩]) ⟨1, 2, 7⟩ 2 7,
   apply_transfer_semantics.2.1 (replay [⟨0, 1, 7⟩]) ⟨1, 2, 7⟩ 7⟩
